import Mathlib

/-!
Verification of the retrieval / RAG pipeline of the `bailgada` repository
(`ai-learning-path-generator`).  The Python sources under `src/` are shallowly
embedded below:

* pure functions become Lean functions over `List`, `String`, `ℚ` and `ℤ`
  (Python floats are modelled by exact rationals, Python `int` by `ℤ`/`ℕ`);
* calls into external services (OpenAI, Cohere, ChromaDB, numpy, rank_bm25,
  the cross-encoder) are modelled by explicit oracle parameters: the embedded
  function receives the value the external call would have produced, or an
  `Except` value when the call can fail;
* Python's process-seeded `hash` builtin is an explicit parameter
  `pyhash : String → ℤ`; content keys built from `hash(page_content)` are
  modelled by the content string itself (hash assumed injective);
* Python dicts keyed by strings are association lists with first-match lookup
  and in-place update, which preserves the dict's insertion order exactly as
  CPython does;
* Python's stable `sorted(..., reverse=True)` / `list.sort(reverse=True)` is
  modelled by Mathlib's `List.insertionSort` with the reflexive descending
  relation on scores, which is a stable sort for that relation.

All definitions are computable so that every theorem can be exercised on
concrete inputs.
-/

namespace Bailgada

/-- Metadata values stored in a document's metadata dict (the code only ever
stores strings, numbers and booleans there). -/
inductive MetaVal where
  | str (s : String)
  | num (q : ℚ)
  | bool (b : Bool)
deriving DecidableEq, Repr

/-- A metadata dict, as an association list in insertion order. -/
abbrev Meta := List (String × MetaVal)

/-- A langchain `Document`: `page_content` plus a metadata dict. -/
structure Doc where
  content : String
  meta : Meta
deriving DecidableEq, Repr

/-- First-match lookup in a metadata dict (Python `d.get(k)`). -/
def metaGet (m : Meta) (k : String) : Option MetaVal :=
  (m.find? (fun p => p.1 = k)).map (fun p => p.2)

/-- Python `d[k] = v`: overwrite the existing binding, else append. -/
def metaSet (m : Meta) (k : String) (v : MetaVal) : Meta :=
  if m.any (fun p => p.1 = k) then
    m.map (fun p => if p.1 = k then (k, v) else p)
  else m ++ [(k, v)]

/-- `doc.metadata.get("relevance_score", default)` read back as a rational
(the code only ever stores numbers under this key). -/
def metaScoreD (m : Meta) (d : ℚ) : ℚ :=
  match metaGet m "relevance_score" with
  | some (MetaVal.num q) => q
  | _ => d

/-- A ranked retrieval result: `{'document': .., 'score': .., 'rank': ..}`
as produced by `BM25Retriever.search`, `reciprocal_rank_fusion` and
`Reranker.rerank`. -/
structure Ranked where
  doc : Doc
  score : ℚ
  rank : ℕ
deriving DecidableEq, Repr

/-- Attach 1-based consecutive ranks (`'rank': len(results) + 1` in each
append loop of the source). -/
def attachRanks (n : ℕ) : List (Doc × ℚ) → List Ranked
  | [] => []
  | (d, s) :: t => ⟨d, s, n⟩ :: attachRanks (n + 1) t

/-! ### `src/ml/query_rewriter.py` — `QueryRewriter.rewrite` (C8)

The OpenAI chat-completion call is modelled by `gen : Except Unit String`;
`.ok s` is the returned message content, `.error ()` is any exception raised
by the call (network error, rate limit, missing content, ...), which the
source catches with `except Exception`. -/

/-- Python `s.strip('"\'')`: drop leading and trailing quote characters. -/
def stripQuotes (s : String) : String :=
  let qs : List Char := [Char.ofNat 34, Char.ofNat 39]
  (((s.toList.dropWhile (fun c => c ∈ qs)).reverse.dropWhile
      (fun c => c ∈ qs)).reverse).asString

/-- `QueryRewriter.rewrite`.  `clientAvail` models `self.client` being set. -/
def rewrite (clientAvail : Bool) (query : String) (gen : Except Unit String) :
    String :=
  if !clientAvail then query
  else if query.length > 50 then query
  else
    match gen with
    | Except.error _ => query
    | Except.ok content => stripQuotes content.trim

/-! ### `src/utils/semantic_cache.py` — `SemanticCache._cosine_similarity` (C9)

Vectors are lists of rationals.  `np.linalg.norm` is the square root of the
self dot product; since `ℚ` has no square root, the norm is modelled by an
explicit parameter `sqrtFn` applied to the self dot product, constrained in
the theorems exactly where the square-root property is needed. -/

/-- `np.dot` on 1-d arrays. -/
def dotp (a b : List ℚ) : ℚ :=
  ((a.zip b).map (fun p => p.1 * p.2)).sum

/-- `SemanticCache._cosine_similarity`:
`dot / (norm1 * norm2)`, guarded by `if norm1 == 0 or norm2 == 0: return 0.0`. -/
def cosineSimilarity (sqrtFn : ℚ → ℚ) (vec1 vec2 : List ℚ) : ℚ :=
  let norm1 := sqrtFn (dotp vec1 vec1)
  let norm2 := sqrtFn (dotp vec2 vec2)
  if norm1 = 0 ∨ norm2 = 0 then 0
  else dotp vec1 vec2 / (norm1 * norm2)

/-! ### `src/data/document_store.py` — document ids (C6) -/

/-- The id assigned by `DocumentStore.add_document`:
`document_id or f"doc_{len(content) % 10000}_{hash(content) % 1000000}"`.
(`Int.emod` agrees with Python `%` for a positive modulus.) -/
def addDocumentId (pyhash : String → ℤ) (content : String)
    (documentId : Option String) : String :=
  match documentId with
  | some i => i
  | none =>
      "doc_" ++ toString (content.length % 10000) ++ "_"
        ++ toString ((pyhash content) % 1000000)

/-- The ids assigned by `DocumentStore.add_documents`:
`[f"doc_{i}_{hash(doc.page_content) % 1000000}" for i, doc in enumerate(documents)]`. -/
def addDocumentsIds (pyhash : String → ℤ) (docs : List Doc) : List String :=
  docs.enum.map
    (fun p => "doc_" ++ toString p.1 ++ "_" ++ toString ((pyhash p.2.content) % 1000000))

/-! ### `src/data/document_store.py` — `_try_repair_collection_schema` (C4) -/

/-- The suffix of `s` after the first occurrence of `pat`
(`message.split(pat, 1)[1]`), or `none` when `pat` does not occur. -/
def afterFirst (pat : List Char) : List Char → Option (List Char)
  | [] => if pat.isPrefixOf ([] : List Char) then some [] else none
  | c :: t =>
      if pat.isPrefixOf (c :: t) then some ((c :: t).drop pat.length)
      else afterFirst pat t

/-- The first whitespace-separated token of `s` (Python `s.split()[0]`),
`none` when `s` has no token (the `IndexError` branch). -/
def pyFirstToken (s : List Char) : Option (List Char) :=
  let s1 := s.dropWhile Char.isWhitespace
  if s1 = [] then none else some (s1.takeWhile (fun c => !c.isWhitespace))

/-- The characters stripped by `.strip('"`[]')`. -/
def stripChars : List Char := [Char.ofNat 34, Char.ofNat 96, '[', ']']

/-- Python `s.strip(cs)`: drop the given characters from both ends. -/
def pyStrip (cs : List Char) (s : List Char) : List Char :=
  ((s.dropWhile (fun c => c ∈ cs)).reverse.dropWhile (fun c => c ∈ cs)).reverse

/-- `ch.isalnum() or ch == '_'` (Python `isalnum` modelled on ASCII). -/
def isIdentChar (c : Char) : Bool := c.isAlphanum || c = '_'

/-- The pure core of `_try_repair_collection_schema`: parse the error message
and return `some (table, column)` exactly when the function would go on to
execute `ALTER TABLE table ADD COLUMN column TEXT`, and `none` on every early
`return False`. -/
def repairDecision (message : String) : Option (String × String) :=
  (afterFirst "no such column: ".toList message.toList).bind fun rest =>
  (pyFirstToken rest).bind fun tok =>
  let parts := pyStrip stripChars tok
  if '.' ∈ parts then
    let t := parts.takeWhile (fun c => c ≠ '.')
    let c := (parts.dropWhile (fun c => c ≠ '.')).drop 1
    if t.filter isIdentChar = t ∧ c.filter isIdentChar = c then
      some (String.mk t, String.mk c)
    else none
  else none

/-- `_try_repair_collection_schema` end to end: `dbExists` models
`(Path(self.db_path) / "chroma.sqlite3").exists()` and `alterOk` the
`sqlite3` `ALTER TABLE` call succeeding. -/
def tryRepairCollectionSchema (dbExists alterOk : Bool) (message : String) :
    Bool :=
  match repairDecision message with
  | none => false
  | some _ => dbExists && alterOk

/-! ### `src/data/document_store.py` — `search_documents` result conversion and
the keyword branch of `hybrid_search` (C3)

The ChromaDB engine is external; its reply is the oracle input: the rows
`result["documents"][0]`, and the optional `result["metadatas"][0]` /
`result["distances"][0]` (the code substitutes `{}` / `1.0` when the key is
missing or the list empty).  Out-of-range metadata/distance accesses are
modelled by `getD` defaults; the theorems that depend on a distance only
constrain distances the engine actually reported. -/

/-- The result loop of `search_documents` (lines 329-349): for
`i in range(offset, min(offset + top_k, len(result["documents"][0])))` build a
`Document` whose metadata gains `relevance_score = 1.0 - (distance / 2.0)`. -/
def searchDocumentsConvert (contents : List String) (metas : Option (List Meta))
    (dists : Option (List ℚ)) (top_k offset : ℕ) : List Doc :=
  (List.range' offset (min (offset + top_k) contents.length - offset)).filterMap
    (fun i => (contents.get? i).map (fun content =>
      let metadata : Meta :=
        match metas with
        | some ms => if ms.isEmpty then [] else ms.getD i []
        | none => []
      let distance : ℚ :=
        match dists with
        | some ds => if ds.isEmpty then 1 else ds.getD i 1
        | none => 1
      ⟨content, metaSet metadata "relevance_score" (MetaVal.num (1 - distance / 2))⟩))

/-- Python `s.split()`: whitespace-separated tokens, no empties. -/
def wsTokens : List Char → List (List Char)
  | [] => []
  | c :: t =>
      if c.isWhitespace then wsTokens t
      else (c :: t.takeWhile (fun x => !x.isWhitespace))
        :: wsTokens (t.dropWhile (fun x => !x.isWhitespace))
termination_by s => s.length
decreasing_by
  · simp only [List.length_cons]; omega
  · simp only [List.length_cons]
    have := (List.dropWhile_sublist (l := t) (fun x => !x.isWhitespace)).length_le
    omega

/-- Keep-first deduplication, the order in which a Python `set` built from a
list is counted (only the member set matters to the code: it takes `len` and
counts matches). -/
def dedupFirst {α : Type} [DecidableEq α] : List α → List α
  | [] => []
  | c :: t => c :: (dedupFirst t).filter (fun x => x ≠ c)

/-- `query_terms = set(query.lower().split())` of `hybrid_search`. -/
def queryTerms (query : String) : List (List Char) :=
  dedupFirst (wsTokens query.toLower.toList)

/-- `match_count`: how many distinct query terms occur as substrings of the
lowercased content (`sum(1 for term in query_terms if term in content_lower)`). -/
def kwMatchCount (query content : String) : ℕ :=
  ((queryTerms query).filter
    (fun t => (afterFirst t content.toLower.toList).isSome)).length

/-- The keyword branch of `hybrid_search` (lines 434-450): for each stored row
count how many distinct query terms occur in the lowercased content and, when
positive, emit the document with `relevance_score = match_count / len(query_terms)`. -/
def keywordMatchDocs (query : String) (rows : List (String × Meta)) : List Doc :=
  rows.filterMap (fun r =>
    if 0 < kwMatchCount query r.1 then
      some ⟨r.1, metaSet r.2 "relevance_score"
        (MetaVal.num ((kwMatchCount query r.1 : ℚ) / ((queryTerms query).length : ℚ)))⟩
    else none)

/-! ### `src/data/bm25_retriever.py` — `BM25Retriever.search` (C5)

The scores come from `rank_bm25`'s `BM25Okapi.get_scores`, an external
library; they are the oracle input `scores`, one per indexed document. -/

/-- `np.argsort(scores)[::-1]`: indices sorted ascending by score, reversed.
(`np.argsort`'s tie order is modelled by a deterministic stable sort; no
theorem below depends on the order among tied scores.) -/
def argsortDesc (scores : List ℚ) : List ℕ :=
  ((List.range scores.length).insertionSort
    (fun i j => scores.getD i 0 ≤ scores.getD j 0)).reverse

/-- `BM25Retriever.search`: take the `top_k` highest-scoring indices, keep the
strictly positive scores, attach consecutive ranks. -/
def bm25Search (docs : List Doc) (scores : List ℚ) (top_k : ℕ) : List Ranked :=
  if docs.isEmpty then []
  else
    attachRanks 1 (((argsortDesc scores).take top_k).filterMap (fun i =>
      match (docs.zip scores).get? i with
      | some ds => if 0 < ds.2 then some ds else none
      | none => none))

/-! ### `src/data/bm25_retriever.py` — `reciprocal_rank_fusion` (C1, C2, C7) -/

/-- One element of an input result list:
`{'document': .., 'score': .., 'rank': ..}` with the latter two optional
(`result.get('rank', result.get('score', 1))`). -/
structure RRFIn where
  doc : Doc
  score : Option ℚ
  rank : Option ℚ
deriving DecidableEq, Repr

/-- `result.get('rank', result.get('score', 1))`. -/
def rrfGetRank (e : RRFIn) : ℚ := e.rank.getD (e.score.getD 1)

/-- One accumulator entry: a key of `doc_scores` / `doc_objects` (the content,
standing for `hash(doc.page_content)`), the first document object seen for it,
and the accumulated RRF score. -/
structure AccE where
  key : String
  doc : Doc
  score : ℚ
deriving DecidableEq, Repr

/-- One iteration of the accumulation loop: `doc_scores[doc_key] += rrf_score`
or first insertion (which also records `doc_objects[doc_key] = doc`). -/
def rrfStep (k : ℚ) (acc : List AccE) (e : RRFIn) : List AccE :=
  if acc.any (fun a => a.key = e.doc.content) then
    acc.map (fun a =>
      if a.key = e.doc.content then ⟨a.key, a.doc, a.score + 1 / (k + rrfGetRank e)⟩
      else a)
  else acc ++ [⟨e.doc.content, e.doc, 1 / (k + rrfGetRank e)⟩]

/-- The accumulation loop of `reciprocal_rank_fusion` over all input lists in
order (`doc_scores` and `doc_objects` share their keys and insertion order,
so both dicts are carried by the one association list). -/
def rrfAccum (k : ℚ) (results_list : List (List RRFIn)) : List AccE :=
  results_list.flatten.foldl (rrfStep k) []

/-- The sort relation of `sorted(doc_scores.items(), key=lambda x: x[1],
reverse=True)`: descending by accumulated score. -/
def rrfRel (a b : AccE) : Prop := b.score ≤ a.score

instance : DecidableRel rrfRel := fun a b =>
  inferInstanceAs (Decidable (b.score ≤ a.score))

instance : IsTotal AccE rrfRel :=
  ⟨fun a b => (le_total b.score a.score).imp (fun h => h) (fun h => h)⟩

instance : IsTrans AccE rrfRel :=
  ⟨fun _ _ _ hab hbc => le_trans hbc hab⟩

/-- `reciprocal_rank_fusion`: accumulate, sort by fused score descending
(stable, ties in dict insertion order = first-seen order), re-rank `1..N`. -/
def reciprocal_rank_fusion (k : ℚ) (results_list : List (List RRFIn)) :
    List Ranked :=
  attachRanks 1
    (((rrfAccum k results_list).insertionSort rrfRel).map (fun a => (a.doc, a.score)))

/-! ### `src/ml/reranker.py` — `Reranker.rerank` (C2)

The external scoring engines are oracle inputs: `localScores` carries the
cross-encoder's `predict` output, `cohereResp` the `(index, relevance_score)`
pairs of a Cohere rerank response, and the `Fail` constructors an exception
raised inside the corresponding `try` block. -/

inductive RerankBackend where
  | unavailable
  | localScores (scores : List ℚ)
  | localFail
  | cohereResp (resp : List (ℕ × ℚ))
  | cohereFail
deriving DecidableEq, Repr

/-- The fallback of `rerank` / `_rerank_cohere` / `_rerank_local`: original
order, `documents[:top_k]`, score from `doc.metadata.get('relevance_score', 0.5)`. -/
def rerankFallback (docs : List Doc) (top_k : ℕ) : List Ranked :=
  attachRanks 1 ((docs.take top_k).map (fun d => (d, metaScoreD d.meta (1 / 2))))

/-- `Reranker.rerank`.  The local branch sorts `zip(documents, scores)` by
score descending (stable) and takes `top_k`; the Cohere branch replays the
response rows `documents[result.index]` (an out-of-range index raises inside
the `try` and falls back, like any other failure). -/
def rerank (docs : List Doc) (top_k : ℕ) (b : RerankBackend) : List Ranked :=
  if docs.isEmpty then []
  else
    match b with
    | RerankBackend.unavailable => rerankFallback docs top_k
    | RerankBackend.localFail => rerankFallback docs top_k
    | RerankBackend.cohereFail => rerankFallback docs top_k
    | RerankBackend.localScores scores =>
        attachRanks 1
          (((docs.zip scores).insertionSort (fun a b => b.2 ≤ a.2)).take top_k)
    | RerankBackend.cohereResp resp =>
        if resp.all (fun p => p.1 < docs.length) then
          attachRanks 1 (resp.filterMap (fun p => (docs.get? p.1).map (fun d => (d, p.2))))
        else rerankFallback docs top_k

/-! ### `src/ml/context_compressor.py` — `ContextCompressor.compress` (C10)

The chat-completion call for the document at position `i` is the oracle value
`gens i` (`.ok s` = returned content, `.error ()` = exception, caught inside
`_compress_single`). -/

/-- `_compress_single`: on success strip the reply and keep the original
content when the reply is shorter than 50 characters; on any exception return
the original content. -/
def compressSingle (content : String) (gen : Except Unit String) : String :=
  match gen with
  | Except.error _ => content
  | Except.ok s => let s1 := s.trim; if s1.length < 50 then content else s1

/-- One iteration of the `compress` loop: documents under 100 estimated tokens
(`len(content) // 4`) pass through; larger ones are rebuilt with the
`_compress_single` result and compression metadata
`{**metadata, 'compressed': True, 'original_length': .., 'compressed_length': ..}`. -/
def compressStep (d : Doc) (gen : Except Unit String) : Doc :=
  if d.content.length / 4 < 100 then d
  else
    let cc := compressSingle d.content gen
    ⟨cc, metaSet (metaSet (metaSet d.meta "compressed" (MetaVal.bool true))
        "original_length" (MetaVal.num d.content.length))
        "compressed_length" (MetaVal.num cc.length)⟩

/-- The `for doc in documents` loop of `compress`. -/
def compressGo (gens : ℕ → Except Unit String) (i : ℕ) : List Doc → List Doc
  | [] => []
  | d :: t => compressStep d (gens i) :: compressGo gens (i + 1) t

/-- `ContextCompressor.compress` (the query only feeds the prompt inside the
generation call, which the oracle `gens` models). -/
def compress (clientAvail : Bool) (gens : ℕ → Except Unit String)
    (docs : List Doc) : List Doc :=
  if !clientAvail || docs.isEmpty then docs else compressGo gens 0 docs

/-- `pat` occurs contiguously inside `s`. -/
def containsSeq {α : Type} (pat s : List α) : Prop :=
  ∃ u v, s = u ++ (pat ++ v)

/-- The score recorded in the RRF accumulator for `key` (`doc_scores.get(key, 0)`). -/
def accScoreD (acc : List AccE) (key : String) : ℚ :=
  match acc.find? (fun a => a.key = key) with
  | some a => a.score
  | none => 0

/-- The fused score C1 specifies for the document with content `c`: the sum,
over every input list in which it appears, of `1 / (k + rank in that list)`. -/
def specScore (k : ℚ) (results_list : List (List RRFIn)) (c : String) : ℚ :=
  (results_list.map (fun l =>
    match l.find? (fun e => e.doc.content = c) with
    | some e => 1 / (k + rrfGetRank e)
    | none => 0)).sum

/-- Position of the first occurrence of content `c` across the input lists in
iteration order (the "first-seen" order of C7). -/
def firstSeenIdx (results_list : List (List RRFIn)) (c : String) : ℕ :=
  (results_list.flatten.map (fun e => e.doc.content)).findIdx (fun x => x = c)

/-- The key list produced by inserting each content once, in first-seen order
(the key set of a Python dict filled by the RRF loop). -/
def seenKeys (ks : List String) (cs : List String) : List String :=
  cs.foldl (fun ks c => if c ∈ ks then ks else ks ++ [c]) ks

end Bailgada

namespace Bailgada

/-! ## Helper lemmas -/

theorem containsSeq_trans {α : Type} {a b c : List α}
    (hab : containsSeq a b) (hbc : containsSeq b c) : containsSeq a c := by
  obtain ⟨u, v, rfl⟩ := hab
  obtain ⟨x, y, rfl⟩ := hbc
  exact ⟨x ++ u, v ++ y, by simp [List.append_assoc]⟩

theorem dotp_cons (x : ℚ) (t : List ℚ) : dotp (x :: t) (x :: t) = x * x + dotp t t := by
  simp [dotp]

theorem dotp_self_nonneg (v : List ℚ) : 0 ≤ dotp v v := by
  induction v with
  | nil => simp [dotp]
  | cons x t ih =>
      rw [dotp_cons]
      exact add_nonneg (mul_self_nonneg x) ih

theorem dotp_self_pos (v : List ℚ) (h : ∃ x ∈ v, x ≠ 0) : 0 < dotp v v := by
  induction v with
  | nil => simp at h
  | cons x t ih =>
      rw [dotp_cons]
      rcases h with ⟨y, hy, hy0⟩
      rcases List.mem_cons.mp hy with rfl | hyt
      · exact add_pos_of_pos_of_nonneg (mul_self_pos.mpr hy0) (dotp_self_nonneg t)
      · exact add_pos_of_nonneg_of_pos (mul_self_nonneg x) (ih ⟨y, hyt, hy0⟩)

theorem isPrefixOf_decomp {α : Type} [DecidableEq α] :
    ∀ (p s : List α), p.isPrefixOf s = true → s = p ++ s.drop p.length := by
  intro p
  induction p with
  | nil => intro s _; simp
  | cons a p ih =>
      intro s hp
      cases s with
      | nil => simp [List.isPrefixOf] at hp
      | cons b t =>
          simp only [List.isPrefixOf, Bool.and_eq_true, beq_iff_eq] at hp
          obtain ⟨heq, hp2⟩ := hp
          subst heq
          simpa using ih t hp2

theorem afterFirst_decomp (pat : List Char) :
    ∀ (s r : List Char), afterFirst pat s = some r → ∃ pre, s = pre ++ (pat ++ r) := by
  intro s
  induction s with
  | nil =>
      intro r h
      unfold afterFirst at h
      split at h
      case isTrue hp =>
        injection h with h
        subst h
        refine ⟨[], ?_⟩
        have := isPrefixOf_decomp pat [] hp
        simpa using this.symm
      case isFalse => exact absurd h (by simp)
  | cons ch t ih =>
      intro r h
      unfold afterFirst at h
      split at h
      case isTrue hp =>
          injection h with h
          subst h
          exact ⟨[], by simpa using isPrefixOf_decomp pat (ch :: t) hp⟩
      case isFalse =>
          obtain ⟨pre, hpre⟩ := ih r h
          exact ⟨ch :: pre, by rw [List.cons_append, hpre]⟩

theorem dropWhile_ne_dot_cons :
    ∀ (l : List Char), '.' ∈ l →
      ∃ r, l.dropWhile (fun c => c ≠ '.') = '.' :: r := by
  intro l hl
  induction l with
  | nil => simp at hl
  | cons a t ih =>
      by_cases ha : a = '.'
      · subst ha
        exact ⟨t, by simp [List.dropWhile]⟩
      · have hm : '.' ∈ t := by
          rcases List.mem_cons.mp hl with h | h
          · exact absurd h.symm ha
          · exact h
        obtain ⟨r, hr⟩ := ih hm
        exact ⟨r, by simpa [List.dropWhile, ha] using hr⟩

theorem compressGo_length (g : ℕ → Except Unit String) :
    ∀ (n : ℕ) (docs : List Doc), (compressGo g n docs).length = docs.length := by
  intro n docs
  induction docs generalizing n with
  | nil => rfl
  | cons d t ih => simp [compressGo, ih]

theorem compressGo_get? (g : ℕ → Except Unit String) :
    ∀ (docs : List Doc) (n i : ℕ),
      (compressGo g n docs).get? i = (docs.get? i).map (fun d => compressStep d (g (n + i))) := by
  intro docs
  induction docs with
  | nil => intro n i; rfl
  | cons d t ih =>
      intro n i
      cases i with
      | zero => rfl
      | succ j =>
          simp only [compressGo, List.get?_cons_succ]
          rw [ih (n + 1) j]
          have : n + 1 + j = n + (j + 1) := by omega
          rw [this]

/-! ## C8 — `QueryRewriter.rewrite` failure fallback -/

/-- C8: whenever the text-generation call made by `QueryRewriter.rewrite`
fails (for any reason, modelled by the `Except.error` oracle outcome), the
rewriter returns the original query string unchanged; the embedding is a
total function, so no exception escapes to the caller. -/
theorem rewrite_generation_failure_returns_original
    (clientAvail : Bool) (query : String) (e : Unit) :
    rewrite clientAvail query (Except.error e) = query := by
  unfold rewrite
  cases clientAvail with
  | false => rfl
  | true =>
      simp only [Bool.not_true, Bool.false_eq_true, if_false]
      split <;> rfl

/-! ## C9 — cosine similarity boundary values -/

/-- C9: the semantic cache's cosine similarity returns exactly `1` on any
non-zero vector paired with itself, and returns `0` whenever either argument
has zero norm; the zero-norm guard means it never divides by zero.  The
square root inside `np.linalg.norm` is the parameter `s`, constrained by its
defining property at the two points where it is applied. -/
theorem cosineSimilarity_self_eq_one_and_zero_norm_eq_zero
    (s : ℚ → ℚ) (v a b : List ℚ)
    (hsq : s (dotp v v) * s (dotp v v) = dotp v v)
    (hv : ∃ x ∈ v, x ≠ 0)
    (hz : dotp a a = 0 ∨ dotp b b = 0)
    (hs0 : s 0 = 0) :
    cosineSimilarity s v v = 1 ∧ cosineSimilarity s a b = 0 := by
  constructor
  · have hpos := dotp_self_pos v hv
    have hns : s (dotp v v) ≠ 0 := by
      intro h0
      rw [h0, zero_mul] at hsq
      exact absurd hsq.symm (ne_of_gt hpos)
    unfold cosineSimilarity
    rw [if_neg (by push_neg; exact ⟨hns, hns⟩)]
    rw [hsq]
    exact div_self (ne_of_gt hpos)
  · unfold cosineSimilarity
    rcases hz with h | h
    · rw [if_pos (Or.inl (by rw [h, hs0]))]
    · rw [if_pos (Or.inr (by rw [h, hs0]))]

/-- Witness for C9 at `v = [3,4]` (norm 5), `a = [0]`, `b = [7]`. -/
theorem cosineSimilarity_boundary_witness :
    cosineSimilarity (fun q : ℚ => if q = 25 then (5 : ℚ) else 0) [3, 4] [3, 4] = 1 ∧
    cosineSimilarity (fun q : ℚ => if q = 25 then (5 : ℚ) else 0) [0] [7] = 0 :=
  cosineSimilarity_self_eq_one_and_zero_norm_eq_zero
    (fun q : ℚ => if q = 25 then (5 : ℚ) else 0) [3, 4] [0] [7]
    (by norm_num [dotp]) ⟨3, by norm_num, by norm_num⟩
    (Or.inl (by norm_num [dotp])) (by norm_num)

/-! ## C6 — content-derived document ids -/

/-- C6 counterexample: two documents with identical content at positions 0 and
1 of the same `add_documents` batch receive the ids `doc_0_..` and `doc_1_..`,
which differ — the batch id embeds the position, so duplicate content does
not collide. -/
theorem addDocumentsIds_duplicate_content_distinct_ids :
    addDocumentsIds (fun _ => 0) [⟨"a", []⟩, ⟨"a", []⟩] = ["doc_0_0", "doc_1_0"] ∧
    "doc_0_0" ≠ "doc_1_0" := by
  constructor
  · decide
  · decide

/-- C6 amended: `add_document` (without an explicit id) derives the id from
the content alone — `doc_{len(content) % 10000}_{hash(content) % 1000000}` —
so repeated `add_document` calls with the same content collide; but
`add_documents` embeds the batch position in each id, so identical content at
different positions of one batch gets distinct ids and does not dedupe. -/
theorem addDocument_ids_content_derived_but_batch_positional
    (h : String → ℤ) (c : String) (m : Meta) (i : String) :
    addDocumentId h c (some i) = i ∧
    addDocumentId h c none =
      "doc_" ++ toString (c.length % 10000) ++ "_" ++ toString (h c % 1000000) ∧
    addDocumentsIds h [⟨c, m⟩, ⟨c, m⟩] =
      ["doc_0_" ++ toString (h c % 1000000), "doc_1_" ++ toString (h c % 1000000)] ∧
    "doc_0_" ++ toString (h c % 1000000) ≠ "doc_1_" ++ toString (h c % 1000000) := by
  refine ⟨rfl, rfl, ?_, ?_⟩
  · have h0 : "doc_" ++ toString (0 : ℕ) ++ "_" = "doc_0_" := by decide
    have h1 : "doc_" ++ toString (1 : ℕ) ++ "_" = "doc_1_" := by decide
    simp only [addDocumentsIds, List.enum, List.enumFrom, List.map]
    rw [h0, h1]
  · intro heq
    have h2 := congrArg String.data heq
    simp only [String.data_append] at h2
    have h3 : "doc_0_".data = "doc_1_".data := List.append_inj_left h2 (by decide)
    exact absurd h3 (by decide)

/-! ## C10 — `ContextCompressor.compress` frame property -/

set_option maxRecDepth 40000 in
/-- C10 counterexample: a 400-character document whose generation call fails
is NOT passed through unchanged — its content is kept, but the metadata gains
`compressed: True` and the length bookkeeping keys. -/
theorem compress_failed_generation_changes_document :
    compress true (fun _ => Except.error ()) [⟨(List.replicate 400 'a').asString, []⟩]
      ≠ [⟨(List.replicate 400 'a').asString, []⟩] := by
  decide

/-- C10 amended: `compress` returns exactly as many documents as it receives,
in the same order: the document at position `i` of the output is the document
at position `i` of the input, either untouched (compression disabled, or the
document under 100 estimated tokens) or rebuilt by `compressStep` — same
content when the generation call fails or returns under 50 characters, but
with compression metadata added whenever the document reaches the generation
step.  No document is dropped, added or reordered. -/
theorem compress_same_count_same_order
    (ca : Bool) (g : ℕ → Except Unit String) (docs : List Doc) :
    (compress ca g docs).length = docs.length ∧
    ∀ i d, docs.get? i = some d →
      (d.content.length / 4 < 100 → (compress ca g docs).get? i = some d) ∧
      ((compress ca g docs).get? i = some (compressStep d (g i)) ∨
        (compress ca g docs).get? i = some d) := by
  unfold compress
  split
  · exact ⟨rfl, fun i d hd => ⟨fun _ => hd, Or.inr hd⟩⟩
  · refine ⟨compressGo_length g 0 docs, fun i d hd => ?_⟩
    have hg := compressGo_get? g docs 0 i
    rw [hd] at hg
    simp only [Option.map_some', Nat.zero_add] at hg
    refine ⟨fun hshort => ?_, Or.inl hg⟩
    rw [hg]
    unfold compressStep
    rw [if_pos hshort]

/-- Witness for C10 at a short document with a failing generation call. -/
theorem compress_same_count_witness :
    (compress true (fun _ => Except.error ()) [⟨"hi", []⟩]).length = 1 ∧
    (compress true (fun _ => Except.error ()) [⟨"hi", []⟩]).get? 0 = some ⟨"hi", []⟩ := by
  have h := compress_same_count_same_order true (fun _ => Except.error ()) [⟨"hi", []⟩]
  exact ⟨h.1, (h.2 0 ⟨"hi", []⟩ rfl).1 (by decide)⟩

/-! ## C4 — schema repair gating -/

/-- C4: the repair routine constructs an `ALTER TABLE t ADD COLUMN c` only
when the error message contains `"no such column: "` and, contiguously inside
the message, the parsed `t.c` pair, with both names made purely of
alphanumeric characters and underscores; on any message the parser rejects,
no `ALTER` is issued and `_try_repair_collection_schema` returns `False`. -/
theorem repair_alter_only_on_clean_missing_column_pattern (msg : String) :
    (∀ t c, repairDecision msg = some (t, c) →
      (∀ ch ∈ t.data, isIdentChar ch = true) ∧
      (∀ ch ∈ c.data, isIdentChar ch = true) ∧
      containsSeq "no such column: ".toList msg.toList ∧
      containsSeq (t.data ++ '.' :: c.data) msg.toList) ∧
    (repairDecision msg = none →
      ∀ db ok, tryRepairCollectionSchema db ok msg = false) := by
  constructor
  · intro t c hsome
    unfold repairDecision at hsome
    cases haf : afterFirst "no such column: ".toList msg.toList with
    | none => rw [haf] at hsome; exact absurd hsome (by simp)
    | some rest =>
        rw [haf] at hsome
        simp only [Option.some_bind] at hsome
        cases htok : pyFirstToken rest with
        | none => rw [htok] at hsome; exact absurd hsome (by simp)
        | some tok =>
            rw [htok] at hsome
            simp only [Option.some_bind] at hsome
            split at hsome
            case isFalse => exact absurd hsome (by simp)
            case isTrue hdot =>
                split at hsome
                case isFalse => exact absurd hsome (by simp)
                case isTrue hvalid =>
                    injection hsome with hpair
                    have ht : t = String.mk ((pyStrip stripChars tok).takeWhile (fun c => c ≠ '.')) :=
                      (congrArg Prod.fst hpair).symm
                    have hc : c = String.mk (((pyStrip stripChars tok).dropWhile (fun c => c ≠ '.')).drop 1) :=
                      (congrArg Prod.snd hpair).symm
                    obtain ⟨pre, hmsg⟩ := afterFirst_decomp _ _ _ haf
                    obtain ⟨r0, hr0⟩ := dropWhile_ne_dot_cons (pyStrip stripChars tok) hdot
                    have hparts : pyStrip stripChars tok = t.data ++ '.' :: c.data := by
                      rw [ht, hc]
                      conv_lhs => rw [(List.takeWhile_append_dropWhile
                        (p := fun c => c ≠ '.') (l := pyStrip stripChars tok)).symm]
                      rw [hr0]
                      rfl
                    have h1 : containsSeq (t.data ++ '.' :: c.data) tok := by
                      rw [hparts.symm]
                      refine ⟨tok.takeWhile (fun ch => ch ∈ stripChars),
                        ((tok.dropWhile (fun ch => ch ∈ stripChars)).reverse.takeWhile
                          (fun ch => ch ∈ stripChars)).reverse, ?_⟩
                      conv_lhs => rw [(List.takeWhile_append_dropWhile
                        (p := fun ch => ch ∈ stripChars) (l := tok)).symm]
                      congr 1
                      conv_lhs => rw [← List.reverse_reverse
                        (tok.dropWhile (fun ch => ch ∈ stripChars))]
                      conv_lhs => rw [(List.takeWhile_append_dropWhile
                        (p := fun ch => ch ∈ stripChars)
                        (l := (tok.dropWhile (fun ch => ch ∈ stripChars)).reverse)).symm]
                      rw [List.reverse_append]
                      rfl
                    have h2 : containsSeq tok rest := by
                      simp only [pyFirstToken] at htok
                      split at htok
                      case isTrue => exact absurd htok (by simp)
                      case isFalse hne =>
                          injection htok with htok
                          obtain ⟨w, hw⟩ := List.dropWhile_suffix
                            (l := rest) Char.isWhitespace
                          refine ⟨w, (rest.dropWhile Char.isWhitespace).dropWhile
                            (fun c => !c.isWhitespace), ?_⟩
                          conv_lhs => rw [← hw]
                          congr 1
                          rw [← htok]
                          exact (List.takeWhile_append_dropWhile
                            (p := fun c => !c.isWhitespace)
                            (l := rest.dropWhile Char.isWhitespace)).symm
                    have h3 : containsSeq rest msg.toList :=
                      ⟨pre ++ "no such column: ".toList, [], by
                        rw [hmsg]; simp [List.append_assoc]⟩
                    have hdotinmsg : containsSeq (t.data ++ '.' :: c.data) msg.toList :=
                      containsSeq_trans h1 (containsSeq_trans h2 h3)
                    refine ⟨?_, ?_, ⟨pre, rest, hmsg⟩, hdotinmsg⟩
                    · intro ch hch
                      have := List.filter_eq_self.mp hvalid.1
                      exact this ch (by rw [ht] at hch; exact hch)
                    · intro ch hch
                      have := List.filter_eq_self.mp hvalid.2
                      exact this ch (by rw [hc] at hch; exact hch)
  · intro hnone db ok
    unfold tryRepairCollectionSchema
    rw [hnone]

theorem attachRanks_length : ∀ (n : ℕ) (l : List (Doc × ℚ)),
    (attachRanks n l).length = l.length := by
  intro n l
  induction l generalizing n with
  | nil => rfl
  | cons p t ih => simp [attachRanks, ih]

theorem attachRanks_get? : ∀ (l : List (Doc × ℚ)) (n i : ℕ),
    (attachRanks n l).get? i = (l.get? i).map (fun p => ⟨p.1, p.2, n + i⟩) := by
  intro l
  induction l with
  | nil => intro n i; rfl
  | cons p t ih =>
      intro n i
      cases i with
      | zero => simp [attachRanks]
      | succ j =>
          simp only [attachRanks, List.get?_cons_succ]
          rw [ih (n + 1) j]
          have : n + 1 + j = n + (j + 1) := by omega
          rw [this]

theorem attachRanks_mem : ∀ (n : ℕ) (l : List (Doc × ℚ)) (r : Ranked),
    r ∈ attachRanks n l → ∃ p ∈ l, r.doc = p.1 ∧ r.score = p.2 := by
  intro n l
  induction l generalizing n with
  | nil => intro r h; simp [attachRanks] at h
  | cons p t ih =>
      intro r h
      rcases List.mem_cons.mp h with rfl | h
      · exact ⟨p, List.mem_cons_self p t, rfl, rfl⟩
      · obtain ⟨q, hq, h1, h2⟩ := ih (n + 1) r h
        exact ⟨q, List.mem_cons_of_mem p hq, h1, h2⟩

theorem attachRanks_mem_of_mem : ∀ (n : ℕ) (l : List (Doc × ℚ)) (p : Doc × ℚ),
    p ∈ l → ∃ r ∈ attachRanks n l, r.doc = p.1 ∧ r.score = p.2 := by
  intro n l
  induction l generalizing n with
  | nil => intro p h; simp at h
  | cons q t ih =>
      intro p h
      rcases List.mem_cons.mp h with rfl | h
      · exact ⟨⟨p.1, p.2, n⟩, List.mem_cons_self _ _, rfl, rfl⟩
      · obtain ⟨r, hr, h1, h2⟩ := ih (n + 1) p h
        exact ⟨r, List.mem_cons_of_mem _ hr, h1, h2⟩

theorem metaGet_metaSet (m : Meta) (k : String) (v : MetaVal) :
    metaGet (metaSet m k v) k = some v := by
  unfold metaGet metaSet
  by_cases h : m.any (fun p => p.1 = k) = true
  · rw [if_pos h]
    induction m with
    | nil => simp at h
    | cons p t ih =>
        by_cases hp : p.1 = k
        · simp only [List.map_cons, if_pos hp]
          rw [List.find?_cons_of_pos _ (by simp)]
          rfl
        · have ht : t.any (fun p => p.1 = k) = true := by
            rcases List.any_eq_true.mp h with ⟨x, hx, hxk⟩
            rcases List.mem_cons.mp hx with rfl | hx
            · exact absurd (of_decide_eq_true hxk) hp
            · exact List.any_eq_true.mpr ⟨x, hx, hxk⟩
          simp only [List.map_cons, if_neg hp]
          rw [List.find?_cons_of_neg _ (by simpa using hp)]
          exact ih ht
  · rw [if_neg h]
    induction m with
    | nil =>
        rw [List.nil_append, List.find?_cons_of_pos _ (by simp)]
        rfl
    | cons p t ih =>
        have hp : ¬(p.1 = k) := by
          intro hk
          exact h (List.any_eq_true.mpr ⟨p, List.mem_cons_self p t, by simpa using hk⟩)
        have ht : ¬(t.any (fun p => p.1 = k) = true) := by
          intro hk
          rcases List.any_eq_true.mp hk with ⟨x, hx, hxk⟩
          exact h (List.any_eq_true.mpr ⟨x, List.mem_cons_of_mem p hx, hxk⟩)
        rw [List.cons_append, List.find?_cons_of_neg _ (by simpa using hp)]
        exact ih ht

/-! ## C3 — relevance scores of retrieval results -/

/-- C3 counterexample: when the engine reports a distance of 3 (the code
applies no clamping and ChromaDB's default squared-L2 distances are not
bounded by 2), `search_documents` annotates the returned document with
`relevance_score = 1 - 3/2 = -1/2`, which is outside `[0,1]`. -/
theorem searchDocuments_negative_relevance_on_large_distance :
    searchDocumentsConvert ["x"] none (some [3]) 5 0 =
      [⟨"x", [("relevance_score", MetaVal.num (-(1 : ℚ) / 2))]⟩] ∧
    ¬(0 ≤ -(1 : ℚ) / 2) := by
  constructor
  · simp only [searchDocumentsConvert, metaSet]
    norm_num [List.range', List.filterMap_cons]
  · norm_num

/-- C3 amended: every document returned by `search_documents` carries
`relevance_score = 1 - distance/2`, which lies in `[0,1]` whenever the
engine-reported distances lie in `[0,2]` (the code does not clamp, so
distances above 2 produce negative scores — see the counterexample); every
document returned by the keyword branch of `hybrid_search` carries a
`relevance_score` in `(0,1]` unconditionally. -/
theorem relevance_scores_in_unit_interval
    (contents : List String) (metas : Option (List Meta)) (dists : Option (List ℚ))
    (top_k offset : ℕ) (query : String) (rows : List (String × Meta))
    (hd : ∀ ds, dists = some ds → ∀ q ∈ ds, 0 ≤ q ∧ q ≤ 2) :
    (∀ d ∈ searchDocumentsConvert contents metas dists top_k offset,
      ∃ q : ℚ, metaGet d.meta "relevance_score" = some (MetaVal.num q) ∧
        0 ≤ q ∧ q ≤ 1) ∧
    (∀ d ∈ keywordMatchDocs query rows,
      ∃ q : ℚ, metaGet d.meta "relevance_score" = some (MetaVal.num q) ∧
        0 < q ∧ q ≤ 1) := by
  constructor
  · intro d hd'
    obtain ⟨i, _, hfi⟩ := List.mem_filterMap.mp hd'
    cases hci : contents.get? i with
    | none => rw [hci] at hfi; simp at hfi
    | some content =>
        rw [hci] at hfi
        simp only [Option.map_some'] at hfi
        injection hfi with hfi
        subst hfi
        have hdist : 0 ≤ (match dists with
            | some ds => if ds.isEmpty then 1 else ds.getD i 1
            | none => (1 : ℚ)) ∧ (match dists with
            | some ds => if ds.isEmpty then 1 else ds.getD i 1
            | none => (1 : ℚ)) ≤ 2 := by
          cases dists with
          | none => norm_num
          | some ds =>
              by_cases he : ds.isEmpty
              · simp [he]
              · simp only [he, if_false]
                by_cases hi : i < ds.length
                · have hm : ds.getD i 1 ∈ ds := by
                    rw [List.getD_eq_getElem?_getD]
                    rw [List.getElem?_eq_getElem hi]
                    exact List.getElem_mem _
                  exact hd ds rfl _ hm
                · rw [List.getD_eq_getElem?_getD, List.getElem?_eq_none (by omega)]
                  norm_num
        refine ⟨_, metaGet_metaSet _ _ _, ?_, ?_⟩
        · linarith [hdist.2]
        · linarith [hdist.1]
  · intro d hd'
    obtain ⟨r, _, hfi⟩ := List.mem_filterMap.mp hd'
    by_cases hm : 0 < kwMatchCount query r.1
    · rw [if_pos hm] at hfi
      injection hfi with hfi
      subst hfi
      have hle : kwMatchCount query r.1 ≤ (queryTerms query).length :=
        List.length_filter_le _ _
      have hqpos : (0 : ℚ) < ((queryTerms query).length : ℚ) := by
        exact_mod_cast show 0 < (queryTerms query).length by omega
      refine ⟨_, metaGet_metaSet _ _ _, ?_, ?_⟩
      · exact div_pos (by exact_mod_cast hm) hqpos
      · rw [div_le_one hqpos]
        exact_mod_cast hle
    · rw [if_neg hm] at hfi
      simp at hfi

/-- Witness for C3 (amended) at one in-range distance and one keyword row. -/
theorem relevance_scores_witness :
    (∀ d ∈ searchDocumentsConvert ["x"] none (some [1]) 5 0,
      ∃ q : ℚ, metaGet d.meta "relevance_score" = some (MetaVal.num q) ∧
        0 ≤ q ∧ q ≤ 1) ∧
    (∀ d ∈ keywordMatchDocs "x y" [("x a", [])],
      ∃ q : ℚ, metaGet d.meta "relevance_score" = some (MetaVal.num q) ∧
        0 < q ∧ q ≤ 1) :=
  relevance_scores_in_unit_interval ["x"] none (some [1]) 5 0 "x y" [("x a", [])]
    (by intro ds h; injection h with h; subst h; intro q hq; rw [List.mem_singleton.mp hq]; norm_num)

/-! ## C5 — BM25 search: positive scores, top-k bound, consecutive ranks -/

/-- C5: `BM25Retriever.search` never returns a result with score ≤ 0 (even
when that leaves fewer than `top_k` results), returns at most `top_k`
results, and numbers their ranks consecutively from 1.  `scores` is the
`rank_bm25` output, one score per indexed document (`hlen`). -/
theorem bm25_search_positive_topk_consecutive_ranks
    (docs : List Doc) (scores : List ℚ) (top_k : ℕ)
    (hlen : scores.length = docs.length) :
    (∀ r ∈ bm25Search docs scores top_k, 0 < r.score) ∧
    (bm25Search docs scores top_k).length ≤ top_k ∧
    (∀ i r, (bm25Search docs scores top_k).get? i = some r → r.rank = i + 1) := by
  unfold bm25Search
  split
  · exact ⟨by intro r h; simp at h, by simp, by intro i r h; simp at h⟩
  · refine ⟨?_, ?_, ?_⟩
    · intro r hr
      obtain ⟨p, hp, _, hsc⟩ := attachRanks_mem 1 _ r hr
      obtain ⟨i, _, hfi⟩ := List.mem_filterMap.mp hp
      revert hfi
      cases hget : (docs.zip scores).get? i with
      | none => simp
      | some ds =>
          simp only []
          split
          · intro h
            injection h with h
            rw [hsc, ← h]
            assumption
          · simp
    · rw [attachRanks_length]
      calc (((argsortDesc scores).take top_k).filterMap _).length
          ≤ ((argsortDesc scores).take top_k).length := List.length_filterMap_le _ _
        _ ≤ top_k := List.length_take_le _ _
    · intro i r h
      rw [attachRanks_get?] at h
      cases hget : (((argsortDesc scores).take top_k).filterMap _).get? i with
      | none => rw [hget] at h; simp at h
      | some p =>
          rw [hget] at h
          simp only [Option.map_some'] at h
          injection h with h
          rw [← h]
          show 1 + i = i + 1
          omega

/-- Witness for C5 on a three-document corpus where only one score is
positive. -/
theorem bm25_search_witness :
    (∀ r ∈ bm25Search [⟨"x", []⟩, ⟨"y", []⟩, ⟨"z", []⟩] [0, 3, -1] 2, 0 < r.score) ∧
    (bm25Search [⟨"x", []⟩, ⟨"y", []⟩, ⟨"z", []⟩] [0, 3, -1] 2).length ≤ 2 ∧
    (∀ i r, (bm25Search [⟨"x", []⟩, ⟨"y", []⟩, ⟨"z", []⟩] [0, 3, -1] 2).get? i = some r →
      r.rank = i + 1) :=
  bm25_search_positive_topk_consecutive_ranks
    [⟨"x", []⟩, ⟨"y", []⟩, ⟨"z", []⟩] [0, 3, -1] 2 rfl

theorem rrf_length_eq_accum (k : ℚ) (lss : List (List RRFIn)) :
    (reciprocal_rank_fusion k lss).length = (rrfAccum k lss).length := by
  unfold reciprocal_rank_fusion
  rw [attachRanks_length, List.length_map, List.length_insertionSort]

theorem rrfStep_length_le (k : ℚ) (acc : List AccE) (e : RRFIn) :
    (rrfStep k acc e).length ≤ acc.length + 1 := by
  unfold rrfStep
  split
  · rw [List.length_map]; omega
  · rw [List.length_append]; simp

theorem rrf_foldl_length_le (k : ℚ) :
    ∀ (es : List RRFIn) (acc : List AccE),
      (es.foldl (rrfStep k) acc).length ≤ acc.length + es.length := by
  intro es
  induction es with
  | nil => intro acc; simp
  | cons e t ih =>
      intro acc
      calc ((e :: t).foldl (rrfStep k) acc).length
          = (t.foldl (rrfStep k) (rrfStep k acc e)).length := rfl
        _ ≤ (rrfStep k acc e).length + t.length := ih _
        _ ≤ acc.length + 1 + t.length := by
            have := rrfStep_length_le k acc e
            omega
        _ = acc.length + (e :: t).length := by simp [List.length_cons]; omega

theorem rerankFallback_length (docs : List Doc) (top_k : ℕ) :
    (rerankFallback docs top_k).length = min top_k docs.length := by
  unfold rerankFallback
  rw [attachRanks_length, List.length_map, List.length_take]

theorem any_key_iff_mem (acc : List AccE) (c : String) :
    acc.any (fun a => a.key = c) = true ↔ c ∈ acc.map AccE.key := by
  rw [List.any_eq_true]
  constructor
  · rintro ⟨a, ha, hk⟩
    exact List.mem_map.mpr ⟨a, ha, of_decide_eq_true hk⟩
  · rintro h
    obtain ⟨a, ha, hk⟩ := List.mem_map.mp h
    exact ⟨a, ha, by simpa using hk⟩

theorem map_key_update (k : ℚ) (e : RRFIn) :
    ∀ (acc : List AccE),
      (acc.map (fun a =>
        if a.key = e.doc.content
        then (⟨a.key, a.doc, a.score + 1 / (k + rrfGetRank e)⟩ : AccE)
        else a)).map AccE.key = acc.map AccE.key := by
  intro acc
  induction acc with
  | nil => rfl
  | cons a t ih =>
      simp only [List.map_cons, ih]
      congr 1
      split <;> rfl

theorem rrfStep_keys (k : ℚ) (acc : List AccE) (e : RRFIn) :
    (rrfStep k acc e).map AccE.key =
      (if e.doc.content ∈ acc.map AccE.key then acc.map AccE.key
        else acc.map AccE.key ++ [e.doc.content]) := by
  unfold rrfStep
  by_cases hany : acc.any (fun a => a.key = e.doc.content) = true
  · rw [if_pos hany, if_pos ((any_key_iff_mem acc e.doc.content).mp hany)]
    exact map_key_update k e acc
  · rw [if_neg hany, if_neg (fun hmem => hany ((any_key_iff_mem acc e.doc.content).mpr hmem))]
    rw [List.map_append]
    rfl

theorem foldl_rrfStep_keys (k : ℚ) :
    ∀ (es : List RRFIn) (acc : List AccE),
      (es.foldl (rrfStep k) acc).map AccE.key =
        seenKeys (acc.map AccE.key) (es.map (fun e => e.doc.content)) := by
  intro es
  induction es with
  | nil => intro acc; rfl
  | cons e t ih =>
      intro acc
      show ((t.foldl (rrfStep k) (rrfStep k acc e)).map AccE.key) = _
      rw [ih (rrfStep k acc e), rrfStep_keys]
      rfl

theorem seenKeys_eq_append_filter :
    ∀ (cs ks : List String),
      seenKeys ks cs = ks ++ (dedupFirst cs).filter (fun c => c ∉ ks) := by
  intro cs
  induction cs with
  | nil => intro ks; simp [seenKeys, dedupFirst]
  | cons c cs ih =>
      intro ks
      show seenKeys (if c ∈ ks then ks else ks ++ [c]) cs = _
      by_cases hc : c ∈ ks
      · rw [if_pos hc, ih ks]
        congr 1
        show (dedupFirst cs).filter (fun x => x ∉ ks)
            = ((c :: (dedupFirst cs).filter (fun x => x ≠ c)).filter (fun x => x ∉ ks))
        rw [List.filter_cons]
        rw [if_neg (by simpa using hc)]
        rw [List.filter_filter]
        apply List.filter_congr
        intro x _
        by_cases hx : x ∈ ks
        · simp [hx]
        · simp [hx, show x ≠ c from fun h => hx (h ▸ hc)]
      · rw [if_neg hc, ih (ks ++ [c])]
        rw [List.append_assoc]
        congr 1
        show ([c] : List String) ++ (dedupFirst cs).filter (fun x => x ∉ ks ++ [c])
            = ((c :: (dedupFirst cs).filter (fun x => x ≠ c)).filter (fun x => x ∉ ks))
        rw [List.filter_cons]
        rw [if_pos (by simpa using hc)]
        rw [List.singleton_append]
        congr 1
        rw [List.filter_filter]
        apply List.filter_congr
        intro x _
        by_cases hx1 : x ∈ ks
        · simp [hx1, List.mem_append]
        · by_cases hx2 : x = c
          · subst hx2; simp [List.mem_append]
          · simp [hx1, hx2, List.mem_append]

theorem dedupFirst_nodup {α : Type} [DecidableEq α] :
    ∀ (cs : List α), (dedupFirst cs).Nodup := by
  intro cs
  induction cs with
  | nil => exact List.nodup_nil
  | cons c cs ih =>
      refine List.nodup_cons.mpr ⟨?_, List.Nodup.filter _ ih⟩
      intro hc
      have := List.of_mem_filter hc
      simp at this

theorem dedupFirst_mem {α : Type} [DecidableEq α] :
    ∀ (cs : List α) (x : α), x ∈ dedupFirst cs ↔ x ∈ cs := by
  intro cs
  induction cs with
  | nil => intro x; rfl
  | cons c cs ih =>
      intro x
      constructor
      · intro hx
        rcases List.mem_cons.mp hx with rfl | hx
        · exact List.mem_cons_self _ _
        · exact List.mem_cons_of_mem _ ((ih x).mp (List.mem_of_mem_filter hx))
      · intro hx
        rcases List.mem_cons.mp hx with rfl | hx
        · exact List.mem_cons_self _ _
        · by_cases hxc : x = c
          · subst hxc; exact List.mem_cons_self _ _
          · exact List.mem_cons_of_mem _
              (List.mem_filter.mpr ⟨(ih x).mpr hx, by simpa using hxc⟩)

theorem dedupFirst_pairwise_findIdx :
    ∀ (cs : List String),
      (dedupFirst cs).Pairwise
        (fun a b => cs.findIdx (fun x => x = a) < cs.findIdx (fun x => x = b)) := by
  intro cs
  induction cs with
  | nil => exact List.Pairwise.nil
  | cons c cs ih =>
      refine List.pairwise_cons.mpr ⟨?_, ?_⟩
      · intro b hb
        have hbc : b ≠ c := by
          have := List.of_mem_filter hb
          simpa using this
        have hcb : ¬(c = b) := fun h => hbc h.symm
        simp [List.findIdx_cons, hcb]
      · have hf := List.Pairwise.filter (fun x => x ≠ c) ih
        refine hf.imp_of_mem ?_
        intro a b ha hb hab
        have hca : ¬(c = a) := by
          have := List.of_mem_filter ha
          simp at this
          exact fun h => this h.symm
        have hcb : ¬(c = b) := by
          have := List.of_mem_filter hb
          simp at this
          exact fun h => this h.symm
        simp [List.findIdx_cons, hca, hcb]
        omega

theorem accScoreD_nil (key : String) : accScoreD [] key = 0 := rfl

theorem accScoreD_cons (a : AccE) (t : List AccE) (key : String) :
    accScoreD (a :: t) key = if a.key = key then a.score else accScoreD t key := by
  unfold accScoreD
  by_cases h : a.key = key
  · rw [List.find?_cons_of_pos _ (by simpa using h), if_pos h]
  · rw [List.find?_cons_of_neg _ (by simpa using h), if_neg h]

theorem accScoreD_of_any_false :
    ∀ (acc : List AccE) (key : String),
      acc.any (fun a => a.key = key) = false → accScoreD acc key = 0 := by
  intro acc
  induction acc with
  | nil => intro key _; rfl
  | cons a t ih =>
      intro key h
      simp only [List.any_cons, Bool.or_eq_false_iff] at h
      rw [accScoreD_cons, if_neg (by simpa using h.1)]
      exact ih key h.2

theorem accScoreD_append_of_any_false :
    ∀ (acc l₂ : List AccE) (key : String),
      acc.any (fun a => a.key = key) = false →
      accScoreD (acc ++ l₂) key = accScoreD l₂ key := by
  intro acc
  induction acc with
  | nil => intro l₂ key _; rfl
  | cons a t ih =>
      intro l₂ key h
      simp only [List.any_cons, Bool.or_eq_false_iff] at h
      rw [List.cons_append, accScoreD_cons, if_neg (by simpa using h.1)]
      exact ih l₂ key h.2

theorem accScoreD_append_last_other :
    ∀ (acc : List AccE) (x : AccE) (key : String), ¬(x.key = key) →
      accScoreD (acc ++ [x]) key = accScoreD acc key := by
  intro acc
  induction acc with
  | nil =>
      intro x key h
      rw [List.nil_append, accScoreD_cons, if_neg h]
  | cons a t ih =>
      intro x key h
      rw [List.cons_append, accScoreD_cons, accScoreD_cons, ih x key h]

theorem accScoreD_map_update (k : ℚ) (e : RRFIn) :
    ∀ (acc : List AccE) (key : String),
      (key = e.doc.content → acc.any (fun a => a.key = key) = true) →
      accScoreD (acc.map (fun a =>
        if a.key = e.doc.content
        then (⟨a.key, a.doc, a.score + 1 / (k + rrfGetRank e)⟩ : AccE)
        else a)) key
        = accScoreD acc key + (if e.doc.content = key then 1 / (k + rrfGetRank e) else 0) := by
  intro acc
  induction acc with
  | nil =>
      intro key h
      by_cases hk : e.doc.content = key
      · exact absurd (h hk.symm) (by simp)
      · simp [accScoreD_nil, if_neg hk]
  | cons a t ih =>
      intro key h
      rw [List.map_cons, accScoreD_cons, accScoreD_cons]
      have hu : (if a.key = e.doc.content
          then (⟨a.key, a.doc, a.score + 1 / (k + rrfGetRank e)⟩ : AccE)
          else a).key = a.key := by split <;> rfl
      rw [hu]
      by_cases hak : a.key = key
      · rw [if_pos hak, if_pos hak]
        by_cases hae : a.key = e.doc.content
        · have hek : e.doc.content = key := hae ▸ hak
          rw [if_pos hek, if_pos hae]
        · have hek : ¬(e.doc.content = key) := fun hh => hae (hak.trans hh.symm)
          rw [if_neg hek, if_neg hae, add_zero]
      · rw [if_neg hak, if_neg hak]
        apply ih
        intro hk
        have := h hk
        simp only [List.any_cons, Bool.or_eq_true] at this
        rcases this with hhead | htail
        · exact absurd (of_decide_eq_true hhead) (hk ▸ hak)
        · exact htail

theorem accScoreD_rrfStep (k : ℚ) (acc : List AccE) (e : RRFIn) (key : String) :
    accScoreD (rrfStep k acc e) key =
      accScoreD acc key + (if e.doc.content = key then 1 / (k + rrfGetRank e) else 0) := by
  unfold rrfStep
  by_cases hany : acc.any (fun a => a.key = e.doc.content) = true
  · rw [if_pos hany]
    apply accScoreD_map_update
    intro hk
    rw [hk]
    exact hany
  · rw [if_neg hany]
    have hfalse : acc.any (fun a => a.key = e.doc.content) = false :=
      Bool.eq_false_iff.mpr hany
    by_cases hk : e.doc.content = key
    · rw [← hk]
      rw [accScoreD_append_of_any_false acc _ _ hfalse, accScoreD_cons, if_pos rfl,
        accScoreD_of_any_false acc _ hfalse, if_pos rfl, zero_add]
    · rw [accScoreD_append_last_other acc _ key hk, if_neg hk, add_zero]

theorem accScoreD_foldl (k : ℚ) :
    ∀ (es : List RRFIn) (acc : List AccE) (key : String),
      accScoreD (es.foldl (rrfStep k) acc) key =
        accScoreD acc key +
          (es.map (fun e =>
            if e.doc.content = key then 1 / (k + rrfGetRank e) else 0)).sum := by
  intro es
  induction es with
  | nil => intro acc key; simp
  | cons e t ih =>
      intro acc key
      show accScoreD (t.foldl (rrfStep k) (rrfStep k acc e)) key = _
      rw [ih, accScoreD_rrfStep, List.map_cons, List.sum_cons, add_assoc]

theorem sum_ite_zero_of_no_match (k : ℚ) (key : String) :
    ∀ (l : List RRFIn), (∀ e ∈ l, ¬(e.doc.content = key)) →
      (l.map (fun e =>
        if e.doc.content = key then 1 / (k + rrfGetRank e) else 0)).sum = 0 := by
  intro l
  induction l with
  | nil => intro _; rfl
  | cons e t ih =>
      intro h
      rw [List.map_cons, List.sum_cons, if_neg (h e (List.mem_cons_self e t)),
        ih (fun x hx => h x (List.mem_cons_of_mem e hx)), add_zero]

theorem sum_ite_eq_find (k : ℚ) (key : String) :
    ∀ (l : List RRFIn), (l.map (fun e => e.doc.content)).Nodup →
      (l.map (fun e =>
        if e.doc.content = key then 1 / (k + rrfGetRank e) else 0)).sum =
      (match l.find? (fun e => e.doc.content = key) with
        | some e => 1 / (k + rrfGetRank e)
        | none => 0) := by
  intro l
  induction l with
  | nil => intro _; rfl
  | cons e t ih =>
      intro hnd
      rw [List.map_cons] at hnd
      obtain ⟨hh, ht⟩ := List.nodup_cons.mp hnd
      by_cases he : e.doc.content = key
      · rw [List.map_cons, List.sum_cons, if_pos he,
          List.find?_cons_of_pos _ (by simpa using he)]
        have hz : ∀ x ∈ t, ¬(x.doc.content = key) := by
          intro x hx hk
          exact hh (he ▸ hk ▸ List.mem_map_of_mem (fun e => e.doc.content) hx)
        rw [sum_ite_zero_of_no_match k key t hz, add_zero]
      · rw [List.map_cons, List.sum_cons, if_neg he,
          List.find?_cons_of_neg _ (by simpa using he), zero_add]
        exact ih ht

theorem accScoreD_rrfAccum_eq_specScore (k : ℚ) (lss : List (List RRFIn))
    (key : String)
    (hnd : ∀ l ∈ lss, (l.map (fun e => e.doc.content)).Nodup) :
    accScoreD (rrfAccum k lss) key = specScore k lss key := by
  unfold rrfAccum specScore
  rw [accScoreD_foldl, accScoreD_nil, zero_add]
  induction lss with
  | nil => rfl
  | cons l ls ih =>
      rw [List.flatten_cons, List.map_append, List.sum_append, List.map_cons,
        List.sum_cons]
      rw [sum_ite_eq_find k key l (hnd l (List.mem_cons_self l ls)),
        ih (fun x hx => hnd x (List.mem_cons_of_mem l hx))]

theorem rrfStep_preserves_content_key (k : ℚ) (acc : List AccE) (e : RRFIn)
    (h : ∀ a ∈ acc, a.doc.content = a.key) :
    ∀ a ∈ rrfStep k acc e, a.doc.content = a.key := by
  intro a ha
  unfold rrfStep at ha
  split at ha
  · obtain ⟨b, hb, hba⟩ := List.mem_map.mp ha
    revert hba
    split
    · intro hba
      rw [← hba]
      exact h b hb
    · intro hba
      rw [← hba]
      exact h b hb
  · rcases List.mem_append.mp ha with hmem | hmem
    · exact h a hmem
    · rw [List.mem_singleton.mp hmem]

theorem rrfAccum_content_eq_key (k : ℚ) (lss : List (List RRFIn)) :
    ∀ a ∈ rrfAccum k lss, a.doc.content = a.key := by
  unfold rrfAccum
  generalize lss.flatten = es
  have hgen : ∀ (es : List RRFIn) (acc : List AccE),
      (∀ a ∈ acc, a.doc.content = a.key) →
      ∀ a ∈ es.foldl (rrfStep k) acc, a.doc.content = a.key := by
    intro es
    induction es with
    | nil => intro acc h; exact h
    | cons e t ih =>
        intro acc h
        exact ih (rrfStep k acc e) (rrfStep_preserves_content_key k acc e h)
  exact hgen es [] (by intro a ha; simp at ha)

theorem rrfAccum_keys (k : ℚ) (lss : List (List RRFIn)) :
    (rrfAccum k lss).map AccE.key =
      dedupFirst (lss.flatten.map (fun e => e.doc.content)) := by
  unfold rrfAccum
  rw [foldl_rrfStep_keys]
  rw [show (([] : List AccE).map AccE.key) = [] from rfl]
  rw [seenKeys_eq_append_filter]
  rw [List.nil_append]
  rw [List.filter_eq_self.mpr (by intro a _; simp)]

theorem rrfAccum_keys_nodup (k : ℚ) (lss : List (List RRFIn)) :
    ((rrfAccum k lss).map AccE.key).Nodup := by
  rw [rrfAccum_keys]
  exact dedupFirst_nodup _

theorem accScoreD_of_mem :
    ∀ (acc : List AccE), (acc.map AccE.key).Nodup →
      ∀ a ∈ acc, accScoreD acc a.key = a.score := by
  intro acc
  induction acc with
  | nil => intro _ a ha; simp at ha
  | cons b t ih =>
      intro hnd a ha
      rw [List.map_cons] at hnd
      obtain ⟨hh, ht⟩ := List.nodup_cons.mp hnd
      rcases List.mem_cons.mp ha with rfl | hat
      · rw [accScoreD_cons, if_pos rfl]
      · rw [accScoreD_cons]
        by_cases hb : b.key = a.key
        · exact absurd (hb ▸ List.mem_map_of_mem AccE.key hat) hh
        · rw [if_neg hb]
          exact ih ht a hat

theorem orderedInsert_pairwise_stable (R : AccE → AccE → Prop) (x : AccE) :
    ∀ (l : List AccE),
      l.Pairwise (fun a b => a.score = b.score → R a b) →
      (∀ y ∈ l, x.score = y.score → R x y) →
      (l.orderedInsert rrfRel x).Pairwise (fun a b => a.score = b.score → R a b) := by
  intro l
  induction l with
  | nil => intro _ _; simp [List.orderedInsert]
  | cons y t ih =>
      intro hp hx
      obtain ⟨hy, htail⟩ := List.pairwise_cons.mp hp
      rw [List.orderedInsert]
      split
      case isTrue hxy =>
          refine List.pairwise_cons.mpr ⟨?_, hp⟩
          intro z hz hsc
          exact hx z hz hsc
      case isFalse hxy =>
          refine List.pairwise_cons.mpr
            ⟨?_, ih htail (fun z hz => hx z (List.mem_cons_of_mem _ hz))⟩
          intro z hz hsc
          rcases (List.mem_orderedInsert rrfRel).mp hz with rfl | hzt
          · exact absurd (le_of_eq hsc) hxy
          · exact hy z hzt hsc

theorem insertionSort_pairwise_stable (R : AccE → AccE → Prop) :
    ∀ (l : List AccE), l.Pairwise R →
      (l.insertionSort rrfRel).Pairwise (fun a b => a.score = b.score → R a b) := by
  intro l
  induction l with
  | nil => intro _; simp [List.insertionSort]
  | cons a t ih =>
      intro hp
      obtain ⟨ha, ht⟩ := List.pairwise_cons.mp hp
      rw [List.insertionSort]
      exact orderedInsert_pairwise_stable R a _ (ih ht)
        (fun y hy _ => ha y ((List.mem_insertionSort rrfRel).mp hy))

theorem attachRanks_pairwise {P : (Doc × ℚ) → (Doc × ℚ) → Prop}
    {Q : Ranked → Ranked → Prop}
    (h : ∀ (p q : Doc × ℚ) (n m : ℕ), P p q → Q ⟨p.1, p.2, n⟩ ⟨q.1, q.2, m⟩) :
    ∀ (n : ℕ) (l : List (Doc × ℚ)), l.Pairwise P →
      (attachRanks n l).Pairwise Q := by
  intro n l
  induction l generalizing n with
  | nil => intro _; exact List.Pairwise.nil
  | cons p t ih =>
      intro hp
      obtain ⟨hhead, htail⟩ := List.pairwise_cons.mp hp
      show (Ranked.mk p.1 p.2 n :: attachRanks (n + 1) t).Pairwise Q
      refine List.pairwise_cons.mpr ⟨?_, ih (n + 1) htail⟩
      intro r hr
      obtain ⟨q, hq, h1, h2⟩ := attachRanks_mem (n + 1) t r hr
      have hQ := h p q n r.rank (hhead q hq)
      cases r with
      | mk rd rs rr =>
          cases h1
          cases h2
          exact hQ

theorem attachRanks_map_content :
    ∀ (n : ℕ) (l : List (Doc × ℚ)),
      (attachRanks n l).map (fun r => r.doc.content) =
        l.map (fun p => p.1.content) := by
  intro n l
  induction l generalizing n with
  | nil => rfl
  | cons p t ih =>
      show _ :: (attachRanks (n + 1) t).map (fun r => r.doc.content) = _
      rw [ih (n + 1)]
      rfl

/-! ## C1 — RRF fused scores -/

/-- C1: `reciprocal_rank_fusion` assigns to each distinct document (keyed by
content) a single fused entry whose score is `Σ 1/(k + rank in that list)`
over every input list containing the document (`specScore`); every document
occurring in some input list receives an entry, and no content receives two.
`hnd` states that no single input list mentions the same content twice,
which is what gives "its rank in that list" a meaning. -/
theorem rrf_fused_score_is_reciprocal_rank_sum
    (k : ℚ) (lss : List (List RRFIn))
    (hnd : ∀ l ∈ lss, (l.map (fun e => e.doc.content)).Nodup) :
    (∀ r ∈ reciprocal_rank_fusion k lss,
      r.score = specScore k lss r.doc.content) ∧
    (∀ c ∈ lss.flatten.map (fun e => e.doc.content),
      ∃ r ∈ reciprocal_rank_fusion k lss, r.doc.content = c) ∧
    ((reciprocal_rank_fusion k lss).map (fun r => r.doc.content)).Nodup := by
  refine ⟨?_, ?_, ?_⟩
  · intro r hr
    unfold reciprocal_rank_fusion at hr
    obtain ⟨p, hp, hd, hs⟩ := attachRanks_mem 1 _ r hr
    obtain ⟨a, ha, hpa⟩ := List.mem_map.mp hp
    have haA : a ∈ rrfAccum k lss := (List.mem_insertionSort rrfRel).mp ha
    have hck : a.doc.content = a.key := rrfAccum_content_eq_key k lss a haA
    have hval : accScoreD (rrfAccum k lss) a.key = a.score :=
      accScoreD_of_mem _ (rrfAccum_keys_nodup k lss) a haA
    rw [hs, ← hpa]
    show a.score = specScore k lss r.doc.content
    rw [hd, ← hpa]
    show a.score = specScore k lss a.doc.content
    rw [hck, ← hval]
    exact accScoreD_rrfAccum_eq_specScore k lss a.key hnd
  · intro c hc
    have hkeys : c ∈ (rrfAccum k lss).map AccE.key := by
      rw [rrfAccum_keys]
      exact (dedupFirst_mem _ c).mpr hc
    obtain ⟨a, haA, hak⟩ := List.mem_map.mp hkeys
    have hsort : a ∈ (rrfAccum k lss).insertionSort rrfRel :=
      (List.mem_insertionSort rrfRel).mpr haA
    have hpair : (a.doc, a.score) ∈
        ((rrfAccum k lss).insertionSort rrfRel).map (fun a => (a.doc, a.score)) :=
      List.mem_map_of_mem _ hsort
    obtain ⟨r, hr, hd, _⟩ := attachRanks_mem_of_mem 1 _ _ hpair
    refine ⟨r, hr, ?_⟩
    show r.doc.content = c
    rw [hd]
    show a.doc.content = c
    rw [rrfAccum_content_eq_key k lss a haA]
    exact hak
  · unfold reciprocal_rank_fusion
    rw [attachRanks_map_content, List.map_map]
    have hperm : List.Perm
        (((rrfAccum k lss).insertionSort rrfRel).map AccE.key)
        ((rrfAccum k lss).map AccE.key) :=
      (List.perm_insertionSort rrfRel (rrfAccum k lss)).map AccE.key
    have heq : ((rrfAccum k lss).insertionSort rrfRel).map
        ((fun p : Doc × ℚ => p.1.content) ∘ (fun a : AccE => (a.doc, a.score))) =
        ((rrfAccum k lss).insertionSort rrfRel).map AccE.key := by
      apply List.map_congr_left
      intro a ha
      exact rrfAccum_content_eq_key k lss a ((List.mem_insertionSort rrfRel).mp ha)
    rw [heq]
    exact hperm.nodup_iff.mpr (rrfAccum_keys_nodup k lss)

/-- Witness for C1: content "b" appears at rank 2 in the first list and rank
1 in the second, so its fused score is `1/62 + 1/61`. -/
theorem rrf_fused_score_witness :
    ∃ r ∈ reciprocal_rank_fusion 60
      [[⟨⟨"a", []⟩, none, some 1⟩, ⟨⟨"b", []⟩, none, some 2⟩],
        [⟨⟨"b", []⟩, none, some 1⟩]],
      r.doc.content = "b" ∧ r.score = 1 / 62 + 1 / 61 := by
  have h := rrf_fused_score_is_reciprocal_rank_sum 60
    [[⟨⟨"a", []⟩, none, some 1⟩, ⟨⟨"b", []⟩, none, some 2⟩],
      [⟨⟨"b", []⟩, none, some 1⟩]]
    (by intro l hl; fin_cases hl <;> decide)
  obtain ⟨r, hr, hrc⟩ := h.2.1 "b" (by decide)
  refine ⟨r, hr, hrc, ?_⟩
  have hs := h.1 r hr
  rw [hrc] at hs
  rw [hs]
  norm_num +decide [specScore, rrfGetRank, List.find?]

/-! ## C7 — RRF determinism, ordering and tie-breaking -/

/-- C7: `reciprocal_rank_fusion` is deterministic (a pure function of its
input: two calls on the same input give the same output), its output is
sorted by fused score descending, re-ranked consecutively from 1, and among
entries with equal fused scores the earlier output entry is the one whose
document was seen first across the input lists (Python's dict preserves
insertion order and `sorted` is stable). -/
theorem rrf_deterministic_sorted_stable (k : ℚ) (lss : List (List RRFIn)) :
    reciprocal_rank_fusion k lss = reciprocal_rank_fusion k lss ∧
    (reciprocal_rank_fusion k lss).Pairwise (fun a b => b.score ≤ a.score) ∧
    (∀ i r, (reciprocal_rank_fusion k lss).get? i = some r → r.rank = i + 1) ∧
    (reciprocal_rank_fusion k lss).Pairwise (fun a b => a.score = b.score →
      firstSeenIdx lss a.doc.content < firstSeenIdx lss b.doc.content) := by
  refine ⟨rfl, ?_, ?_, ?_⟩
  · unfold reciprocal_rank_fusion
    apply attachRanks_pairwise
      (P := fun p q : Doc × ℚ => q.2 ≤ p.2)
    · intro p q n m hpq
      exact hpq
    · rw [List.pairwise_map]
      exact List.sorted_insertionSort rrfRel (rrfAccum k lss)
  · intro i r h
    unfold reciprocal_rank_fusion at h
    rw [attachRanks_get?] at h
    cases hget : (((rrfAccum k lss).insertionSort rrfRel).map
        (fun a => (a.doc, a.score))).get? i with
    | none => rw [hget] at h; simp at h
    | some p =>
        rw [hget] at h
        simp only [Option.map_some'] at h
        injection h with h
        rw [← h]
        show 1 + i = i + 1
        omega
  · unfold reciprocal_rank_fusion
    have hR : (rrfAccum k lss).Pairwise (fun a b =>
        firstSeenIdx lss a.key < firstSeenIdx lss b.key) := by
      have hmap := rrfAccum_keys k lss
      have hdp := dedupFirst_pairwise_findIdx
        (lss.flatten.map (fun e => e.doc.content))
      rw [← hmap] at hdp
      rw [List.pairwise_map] at hdp
      exact hdp
    have hQ := insertionSort_pairwise_stable
      (fun a b => firstSeenIdx lss a.key < firstSeenIdx lss b.key)
      (rrfAccum k lss) hR
    have hQ2 : ((rrfAccum k lss).insertionSort rrfRel).Pairwise (fun a b =>
        a.score = b.score →
          firstSeenIdx lss a.doc.content < firstSeenIdx lss b.doc.content) := by
      refine hQ.imp_of_mem ?_
      intro a b ha hb hab hsc
      rw [rrfAccum_content_eq_key k lss a ((List.mem_insertionSort rrfRel).mp ha),
        rrfAccum_content_eq_key k lss b ((List.mem_insertionSort rrfRel).mp hb)]
      exact hab hsc
    apply attachRanks_pairwise
      (P := fun p q : Doc × ℚ => p.2 = q.2 →
        firstSeenIdx lss p.1.content < firstSeenIdx lss q.1.content)
    · intro p q n m hpq
      exact hpq
    · rw [List.pairwise_map]
      exact hQ2

/-- Witness for C7 at a singleton input list. -/
theorem rrf_deterministic_witness :
    (Ranked.mk ⟨"a", []⟩
      (1 / ((60 : ℚ) + rrfGetRank ⟨⟨"a", []⟩, none, some 1⟩)) 1).rank = 0 + 1 := by
  have h := (rrf_deterministic_sorted_stable 60 [[⟨⟨"a", []⟩, none, some 1⟩]]).2.2.1
  exact h 0 _ rfl

/-! ## C2 — fusion and rerank size bounds -/

/-- C2 counterexample: with two provider lists of one result each
(provider-configured top-k = 1), `reciprocal_rank_fusion` returns 2 results —
the function has no top-k parameter and returns every distinct document, so
its output exceeds the provider top-k. -/
theorem rrf_output_exceeds_provider_topk :
    (([[⟨⟨"a", []⟩, none, some 1⟩], [⟨⟨"b", []⟩, none, some 1⟩]] :
        List (List RRFIn)).map List.length = [1, 1]) ∧
    (reciprocal_rank_fusion 60
      [[⟨⟨"a", []⟩, none, some 1⟩], [⟨⟨"b", []⟩, none, some 1⟩]]).length = 2 ∧
    ¬(2 ≤ 1) := by
  refine ⟨rfl, ?_, by omega⟩
  rw [rrf_length_eq_accum]
  rfl

/-- C2 amended: `Reranker.rerank` returns at most `top_k` results and at most
as many as it was given (for the Cohere branch this relies on the API
contract that a rerank response with `top_n = top_k` has at most
`min(top_k, len(documents))` rows); `reciprocal_rank_fusion` has no top-k
parameter — its output is only bounded by the total number of input results,
and the caller (`advanced_rag_search`) truncates it with
`fused_results[:HYBRID_TOP_K]` afterwards. -/
theorem rerank_and_fusion_size_bounds :
    (∀ (docs : List Doc) (top_k : ℕ) (b : RerankBackend),
      (∀ resp, b = RerankBackend.cohereResp resp →
        resp.length ≤ top_k ∧ resp.length ≤ docs.length) →
      (rerank docs top_k b).length ≤ top_k ∧
      (rerank docs top_k b).length ≤ docs.length) ∧
    (∀ (k : ℚ) (lss : List (List RRFIn)),
      (reciprocal_rank_fusion k lss).length ≤ (lss.map List.length).sum) := by
  constructor
  · intro docs top_k b hc
    cases b with
    | unavailable =>
        simp only [rerank]
        split
        · simp
        · rw [rerankFallback_length]; omega
    | localFail =>
        simp only [rerank]
        split
        · simp
        · rw [rerankFallback_length]; omega
    | cohereFail =>
        simp only [rerank]
        split
        · simp
        · rw [rerankFallback_length]; omega
    | localScores scores =>
        simp only [rerank]
        split
        · simp
        · rw [attachRanks_length, List.length_take, List.length_insertionSort,
            List.length_zip]
          omega
    | cohereResp resp =>
        simp only [rerank]
        split
        · simp
        · split
          · rw [attachRanks_length]
            have hb := hc resp rfl
            have hf : (resp.filterMap
                (fun p => (docs.get? p.1).map (fun d => (d, p.2)))).length ≤
                resp.length := List.length_filterMap_le _ _
            omega
          · rw [rerankFallback_length]; omega
  · intro k lss
    rw [rrf_length_eq_accum]
    unfold rrfAccum
    calc (lss.flatten.foldl (rrfStep k) []).length
        ≤ ([] : List AccE).length + lss.flatten.length := rrf_foldl_length_le k _ _
      _ = (lss.map List.length).sum := by simp [List.length_flatten]

/-- Witness for C2 (amended) on concrete rerank and fusion inputs. -/
theorem rerank_fusion_bounds_witness :
    (rerank [⟨"a", []⟩, ⟨"b", []⟩] 1 (RerankBackend.localScores [1, 2])).length ≤ 1 ∧
    (rerank [⟨"a", []⟩, ⟨"b", []⟩] 1 (RerankBackend.localScores [1, 2])).length ≤ 2 ∧
    (reciprocal_rank_fusion 60 [[⟨⟨"a", []⟩, none, some 1⟩]]).length ≤ 1 := by
  have h1 := rerank_and_fusion_size_bounds.1 [⟨"a", []⟩, ⟨"b", []⟩] 1
    (RerankBackend.localScores [1, 2])
    (by intro resp hresp; exact absurd hresp (by simp))
  have h2 := rerank_and_fusion_size_bounds.2 60 [[⟨⟨"a", []⟩, none, some 1⟩]]
  exact ⟨h1.1, by simpa using h1.2, by simpa using h2⟩

/-- Witness for C4: a clean missing-column message parses to alphanumeric
names, and a non-matching message never repairs. -/
theorem repair_gating_witness :
    (∀ ch ∈ ("collections" : String).data, isIdentChar ch = true) ∧
    tryRepairCollectionSchema true true "table recreated" = false := by
  constructor
  · exact ((repair_alter_only_on_clean_missing_column_pattern
      "no such column: collections.topic").1 "collections" "topic" (by decide)).1
  · exact (repair_alter_only_on_clean_missing_column_pattern
      "table recreated").2 (by decide) true true

end Bailgada
